import Mathlib

/-!
Shallow embedding of `Carry_Crash.py` (AUDJPY carry-crash prototype).

Dates are modelled as natural numbers (days since an epoch chosen so that
day `d` falls on weekday `d % 7`, with `4` standing for Friday, matching the
`W-FRI` weekly anchor of the source).  Prices and quotes are modelled as exact
rationals; a missing value (pandas `NaN`) is modelled as `none : Option ℚ`.
-/

namespace CarryCrash

/-- Analysis controls of the source (lines 43-46). -/
def HORIZON_WEEKS : ℕ := 4

/-- Bottom quantile of `dfear` classified as a warning (line 45). -/
def WARNING_QUANTILE : ℚ := 1/10

/-- Minimum number of accumulated weeks before the expanding z-score starts
(line 46). -/
def MIN_EXPANDING_WEEKS : ℕ := 52

/-! ## 2) Build AUDJPY spot from AUDUSD * USDJPY (lines 55-70)

A raw row of `spot_df` carries (`AUDUSD_Date`, `AUDUSD`, `USDJPY_Date`,
`USDJPY`).  `pd.to_datetime(..., errors="coerce")` either parses a date or
yields a missing marker, so a date cell is an `Option ℕ`; price cells may be
missing, so they are `Option ℚ`. -/

/-- Raw row of the spot file after the renaming of lines 55-60:
(AUDUSD date, AUDUSD price, USDJPY date, USDJPY price). -/
def SpotRaw : Type := Option ℕ × Option ℚ × Option ℕ × Option ℚ

/-- Per-row cleaning of lines 62-70: the shared `Date` is parsed from the
AUDUSD date column only, rows missing `Date`, `AUDUSD` or `USDJPY` are
removed, and `AUDJPY_spot = AUDUSD * USDJPY` is computed on each surviving
row.  The USDJPY date cell is never consulted. -/
def spotRowFun : SpotRaw → Option (ℕ × ℚ)
  | (some d, some a, _, some u) => some (d, a * u)
  | _ => none

/-- Lines 62-70 applied to the whole raw spot table. -/
def buildSpotDaily (raw : List SpotRaw) : List (ℕ × ℚ) :=
  raw.filterMap spotRowFun

/-! ## Weekly resampling (`.resample("W-FRI").last()`, lines 73-80) -/

/-- Friday (weekday 4) on or after day `d`: the `W-FRI` bin label of `d`. -/
def weekOf (d : ℕ) : ℕ := d + (11 - d % 7) % 7

/-- Stable sort by date (`sort_values("Date")`, line 75). -/
def sortRows (rows : List (ℕ × ℚ)) : List (ℕ × ℚ) :=
  rows.insertionSort fun a b => a.1 ≤ b.1

/-- First-occurrence deduplication by date (`drop_duplicates("Date")`,
line 76), written with an accumulator of already seen dates. -/
def dedupFirst (seen : List ℕ) : List (ℕ × ℚ) → List (ℕ × ℚ)
  | [] => []
  | r :: rs =>
      if r.1 ∈ seen then dedupFirst seen rs
      else r :: dedupFirst (r.1 :: seen) rs

/-- Value of the last row whose date falls in the weekly bin `w`
(the `.last()` aggregation of a weekly bin). -/
def lastObsInWeek (rows : List (ℕ × ℚ)) (w : ℕ) : Option ℚ :=
  ((rows.filter fun r => weekOf r.1 == w).getLast?).map Prod.snd

/-- Weekly bin labels produced by `resample("W-FRI")`: every Friday from the
bin of the smallest date to the bin of the largest date, inclusive.  Pandas
materialises every bin in this range, also the empty ones. -/
def weeklyAnchors (rows : List (ℕ × ℚ)) : List ℕ :=
  match (rows.map Prod.fst).min?, (rows.map Prod.fst).max? with
  | some a, some b =>
      (List.range ((weekOf b - weekOf a) / 7 + 1)).map fun i => weekOf a + 7 * i
  | _, _ => []

/-- The `.resample(WEEKLY_FREQ).last()` step: one output row per weekly bin in
range, holding the last observation of the bin, or a missing marker for an
empty bin. -/
def resampleLastW (rows : List (ℕ × ℚ)) : List (ℕ × Option ℚ) :=
  (weeklyAnchors rows).map fun w => (w, lastObsInWeek rows w)

/-- Lines 73-80 applied to a cleaned daily (date, value) series:
sort by date, deduplicate dates, resample to the weekly grid. -/
def toWeekly (rows : List (ℕ × ℚ)) : List (ℕ × Option ℚ) :=
  resampleLastW (dedupFirst [] (sortRows rows))

/-- `audjpy_spot_w` (lines 73-80), starting from the raw spot file rows. -/
def audjpy_spot_w (raw : List SpotRaw) : List (ℕ × Option ℚ) :=
  toWeekly (buildSpotDaily raw)

/-! ## 3) Forward points -> outright forward (lines 84-113) -/

/-- Line 100-102: replace exact zeros of the weekly points series by a missing
marker before any arithmetic. -/
def replaceZero (l : List (ℕ × Option ℚ)) : List (ℕ × Option ℚ) :=
  l.map fun p => (p.1, p.2.bind fun x => if x = 0 then none else some x)

/-- Index lookup of week `w` in a weekly series. -/
def lookupW (w : ℕ) (b : List (ℕ × Option ℚ)) : Option (Option ℚ) :=
  (b.find? fun q => q.1 == w).map Prod.snd

/-- Inner join of two weekly series on the week index (line 105): keeps the
weeks of `a` that also occur in `b`, in `a`'s order, pairing the two values. -/
def innerJoin (a b : List (ℕ × Option ℚ)) : List (ℕ × Option ℚ × Option ℚ) :=
  a.filterMap fun p => (lookupW p.1 b).map fun v => (p.1, p.2, v)

/-- Missing-propagating addition of two cells. -/
def addCell : Option ℚ → Option ℚ → Option ℚ
  | some a, some b => some (a + b)
  | _, _ => none

/-- Missing-propagating division of a cell by a constant. -/
def divCell (c : ℚ) : Option ℚ → Option ℚ
  | some a => some (a / c)
  | none => none

/-- `audjpy_df` after line 105: weekly spot joined (inner) with the weekly
forward points, zeros already replaced by missing markers. -/
def audjpyJoined (spotRows ptsRows : List (ℕ × ℚ)) :
    List (ℕ × Option ℚ × Option ℚ) :=
  innerJoin (toWeekly spotRows) (replaceZero (toWeekly ptsRows))

/-- Line 108: `AUDJPY_1M_points_price = AUDJPY_1M_points_pips / 100.0`. -/
def pointsPriceCol (spotRows ptsRows : List (ℕ × ℚ)) : List (ℕ × Option ℚ) :=
  (audjpyJoined spotRows ptsRows).map fun t => (t.1, divCell 100 t.2.2)

/-- Lines 111-113: `AUDJPY_1M_forward = AUDJPY_spot + AUDJPY_1M_points_price`. -/
def forwardCol (spotRows ptsRows : List (ℕ × ℚ)) : List (ℕ × Option ℚ) :=
  (audjpyJoined spotRows ptsRows).map fun t =>
    (t.1, addCell t.2.1 (divCell 100 t.2.2))

/-! ## 4) Fear signal (lines 140-148) -/

/-- Expanding mean with a minimum number of observations (line 143):
at position `t` the window is the whole history up to and including `t`. -/
def expMean (minp : ℕ) (l : List ℚ) (t : ℕ) : Option ℚ :=
  if minp ≤ (l.take (t + 1)).length then
    some ((l.take (t + 1)).sum / ((l.take (t + 1)).length : ℚ))
  else none

/-- Expanding sample variance (`ddof = 1`, the pandas default for `.std()`,
line 144) with a minimum number of observations; with fewer than two
observations the `0/0` of `ddof = 1` is a missing marker. -/
def expVar (minp : ℕ) (l : List ℚ) (t : ℕ) : Option ℚ :=
  if minp ≤ (l.take (t + 1)).length ∧ 2 ≤ (l.take (t + 1)).length then
    some (((l.take (t + 1)).map
        fun x => (x - (l.take (t + 1)).sum / ((l.take (t + 1)).length : ℚ)) ^ 2).sum
      / (((l.take (t + 1)).length : ℚ) - 1))
  else none

/-- Line 145: `fear_z = (fear_level - exp_mean) / exp_std`.  The standard
deviation `√v` is irrational in general, so the z-score is represented exactly
by the pair (numerator `x - m`, variance `v`); the actual score is
`(x - m) / √v`.  When the expanding variance is `0` the numerator is provably
`0` as well (`expVar_zero_numerator`), so the source's floating-point division
is `0/0 = NaN`, i.e. a missing marker. -/
def fear_z (minp : ℕ) (l : List ℚ) (t : ℕ) : Option (ℚ × ℚ) :=
  match l[t]?, expMean minp l t, expVar minp l t with
  | some x, some m, some v => if v = 0 then none else some (x - m, v)
  | _, _, _ => none

/-! ## Aligned table (lines 175-176) -/

/-- A single row restricted to the four analysis columns
`ret_total_w, fear_z, dfear, ret_next_h`; `none` is a missing cell. -/
def rowComplete {α β γ δ : Type} :
    Option α × Option β × Option γ × Option δ → Option (α × β × γ × δ)
  | (some a, some b, some c, some d) => some (a, b, c, d)
  | _ => none

/-- Line 176: `aligned = audjpy_df[[...]].dropna()` — keep exactly the rows
whose four analysis cells are all present.  The behaviour depends only on the
missingness pattern, so the cell payload types are generic. -/
def dropnaRows {α β γ δ : Type}
    (tbl : List (Option α × Option β × Option γ × Option δ)) :
    List (α × β × γ × δ) :=
  tbl.filterMap rowComplete

/-! ## 6) Forward-looking return target (line 173) -/

/-- Trailing rolling sum of width `h` over a column without missing values:
position `i` holds the sum of entries `i+1-h .. i` once `h` entries have
accumulated, and a missing marker before that (pandas `rolling(h).sum()`). -/
def rollingSumList (h : ℕ) (l : List ℚ) : List (Option ℚ) :=
  (List.range l.length).map fun i =>
    if h ≤ i + 1 then some (((l.take (i + 1)).drop (i + 1 - h)).sum) else none

/-- Pandas `shift(-k)`: position `i` receives the entry of position `i + k`,
and the final `k` positions become missing. -/
def shiftBack (k : ℕ) (l : List (Option ℚ)) : List (Option ℚ) :=
  (List.range l.length).map fun i => (l[i + k]?).getD none

/-- Line 173: `ret_next_h = ret_total_w.rolling(h).sum().shift(-h+1)`. -/
def ret_next_h (h : ℕ) (l : List ℚ) : List (Option ℚ) :=
  shiftBack (h - 1) (rollingSumList h l)

/-! ## 7) Event study: quantile and warning mask (lines 184-185) -/

/-- Virtual (fractional) position of quantile `q` among `n` sorted values:
`(n - 1) * q` (the numpy default `linear` interpolation scheme). -/
def quantilePos (l : List ℚ) (q : ℚ) : ℚ := ((l.length : ℚ) - 1) * q

/-- Integer part of the virtual position: index of the lower order statistic. -/
def quantileIdx (l : List ℚ) (q : ℚ) : ℕ := ⌊quantilePos l q⌋₊

/-- Empirical quantile with the pandas/numpy default linear interpolation:
with the values sorted ascending, the quantile `q` sits at virtual position
`(n-1)q`; it interpolates linearly between the two neighbouring order
statistics.  An empty column would be `NaN` in pandas; the claims only concern
nonempty columns, the `0` of the unreachable branch is never used there. -/
def quantileLinear (l : List ℚ) (q : ℚ) : ℚ :=
  match (l.insertionSort (· ≤ ·))[quantileIdx l q]?,
        (l.insertionSort (· ≤ ·))[quantileIdx l q + 1]? with
  | some a, some b => a + (quantilePos l q - (quantileIdx l q : ℚ)) * (b - a)
  | some a, none => a
  | none, _ => 0

/-- Line 185: `warning_mask = aligned["dfear"] <= q` with
`q = aligned["dfear"].quantile(WARNING_QUANTILE)` (line 184).  The size of the
warning bucket is the number of rows satisfying the mask. -/
def warningCount (dfear : List ℚ) : ℕ :=
  dfear.countP fun x => decide (x ≤ quantileLinear dfear WARNING_QUANTILE)

/-! ## 8) Predictive regressions with Newey-West standard errors
(lines 197-215)

`statsmodels.OLS(...).fit()` solves the least-squares problem through the
pseudoinverse; for a full-column-rank design `X` this is the normal-equations
solution `(XᵀX)⁻¹ Xᵀ y`, written below with the adjugate so that it is a total
computable function (it agrees with the inverse whenever `det (XᵀX) ≠ 0`).

`cov_hac(results, nlags)` (statsmodels `sandwich_covariance`) computes
`(XᵀX)⁻¹ · (n/(n-k)) · S · (XᵀX)⁻¹` where the meat `S` accumulates, in a loop
over `lag in range(1, nlags+1)`, the Bartlett-weighted lagged outer products
`w_lag (Γ_lag + Γ_lagᵀ)` with `w_lag = 1 - lag/(nlags+1)` on top of the lag-0
term `xuᵀ xu` (weight `w_0 = 1`), `xu := X * resid[:, None]`.
`se_cov` takes the square root of the diagonal and the t-statistics are
`params / se` (lines 202-204 and 213-215). -/

open Matrix

/-- OLS coefficients through the normal equations, total via the adjugate. -/
def olsBeta {n k : ℕ} (X : Matrix (Fin n) (Fin k) ℚ) (y : Fin n → ℚ) :
    Fin k → ℚ :=
  (1 / (Xᵀ * X).det) • ((Xᵀ * X).adjugate.mulVec (Xᵀ.mulVec y))

/-- OLS residuals `u = y - X β`. -/
def residOLS {n k : ℕ} (X : Matrix (Fin n) (Fin k) ℚ) (y : Fin n → ℚ) :
    Fin n → ℚ :=
  fun i => y i - X.mulVec (olsBeta X y) i

/-- Scores `xu = exog * resid[:, None]`. -/
def xuMat {n k : ℕ} (X : Matrix (Fin n) (Fin k) ℚ) (y : Fin n → ℚ) :
    Matrix (Fin n) (Fin k) ℚ :=
  fun i j => X i j * residOLS X y i

/-- Lag-`lag` score cross-product `s = xu[lag:]ᵀ xu[:-lag]`:
`s a b = Σ_{i ≥ lag} xu i a * xu (i-lag) b`. -/
def gammaLag {n k : ℕ} (xu : Matrix (Fin n) (Fin k) ℚ) (lag : ℕ) :
    Matrix (Fin k) (Fin k) ℚ :=
  fun a b => ∑ i : Fin n, if lag ≤ (i : ℕ) then
    xu i a * xu ⟨(i : ℕ) - lag, Nat.lt_of_le_of_lt (Nat.sub_le _ _) i.isLt⟩ b
    else 0

/-- The HAC meat `S_hac_simple(xu, nlags)`: starting from the lag-0 term, the
python loop over `lag in range(1, nlags+1)` adds the Bartlett-weighted lagged
terms. -/
def sHacLoop {n k : ℕ} (xu : Matrix (Fin n) (Fin k) ℚ) (nlags : ℕ) :
    Matrix (Fin k) (Fin k) ℚ :=
  (List.range nlags).foldl
    (fun S (lag1 : ℕ) =>
      S + (1 - (((lag1 : ℕ) : ℚ) + 1) / ((nlags : ℚ) + 1)) •
        (gammaLag xu (lag1 + 1) + (gammaLag xu (lag1 + 1))ᵀ))
    (xuᵀ * xu)

/-- `cov_hac(results, nlags)` with the default `use_correction=True`:
the bread is `normalized_cov_params = (XᵀX)⁻¹`, the meat is scaled by
`n/(n-k)`. -/
def cov_hac {n k : ℕ} (X : Matrix (Fin n) (Fin k) ℚ) (y : Fin n → ℚ)
    (nlags : ℕ) : Matrix (Fin k) (Fin k) ℚ :=
  let bread := (1 / (Xᵀ * X).det) • (Xᵀ * X).adjugate
  bread * (((n : ℚ) / ((n : ℚ) - (k : ℚ))) • sHacLoop (xuMat X y) nlags) * bread

/-- `add_constant(aligned[["dfear"]])` (line 200): design of model (a),
column 0 the intercept, column 1 the regressor. -/
def addConstant1 {n : ℕ} (x : Fin n → ℚ) : Matrix (Fin n) (Fin 2) ℚ :=
  fun i j => if j = 0 then 1 else x i

/-- `add_constant(aligned[["fear_z", "dfear"]])` (line 211): design of
model (b). -/
def addConstant2 {n : ℕ} (x1 x2 : Fin n → ℚ) : Matrix (Fin n) (Fin 3) ℚ :=
  fun i j => if j = 0 then 1 else if j = 1 then x1 i else x2 i

/-- Line 202: `nw_cov1 = cov_hac(ols1, nlags=h-1)`. -/
def nw_cov1 {n : ℕ} (dfear y : Fin n → ℚ) (h : ℕ) : Matrix (Fin 2) (Fin 2) ℚ :=
  cov_hac (addConstant1 dfear) y (h - 1)

/-- Line 213: `nw_cov2 = cov_hac(ols2, nlags=h-1)`. -/
def nw_cov2 {n : ℕ} (fearz dfear y : Fin n → ℚ) (h : ℕ) :
    Matrix (Fin 3) (Fin 3) ℚ :=
  cov_hac (addConstant2 fearz dfear) y (h - 1)

/-- Line 203: `nw_se1 = se_cov(nw_cov1)`, the square roots of the diagonal.
The square root forces the real numbers. -/
noncomputable def nw_se1 {n : ℕ} (dfear y : Fin n → ℚ) (h : ℕ) : Fin 2 → ℝ :=
  fun j => Real.sqrt ((nw_cov1 dfear y h j j : ℚ) : ℝ)

/-- Line 214: `nw_se2 = se_cov(nw_cov2)`. -/
noncomputable def nw_se2 {n : ℕ} (fearz dfear y : Fin n → ℚ) (h : ℕ) :
    Fin 3 → ℝ :=
  fun j => Real.sqrt ((nw_cov2 fearz dfear y h j j : ℚ) : ℝ)

/-- Line 204: `tstats1 = ols1.params / nw_se1`. -/
noncomputable def tstats1 {n : ℕ} (dfear y : Fin n → ℚ) (h : ℕ) : Fin 2 → ℝ :=
  fun j => ((olsBeta (addConstant1 dfear) y j : ℚ) : ℝ) / nw_se1 dfear y h j

/-- Line 215: `tstats2 = ols2.params / nw_se2`. -/
noncomputable def tstats2 {n : ℕ} (fearz dfear y : Fin n → ℚ) (h : ℕ) :
    Fin 3 → ℝ :=
  fun j =>
    ((olsBeta (addConstant2 fearz dfear) y j : ℚ) : ℝ) / nw_se2 fearz dfear y h j

/-! ## Helper lemmas -/

/-- A cell of the zero-cleaned weekly points series is never an exact zero. -/
lemma mem_replaceZero_ne_zero {l : List (ℕ × Option ℚ)} {w : ℕ} {p : ℚ}
    (h : (w, some p) ∈ replaceZero l) : p ≠ 0 := by
  rcases List.mem_map.mp h with ⟨⟨w0, v0⟩, _, hv⟩
  have hv2 : (v0.bind fun x => if x = 0 then none else some x) = some p :=
    congrArg Prod.snd hv
  cases v0 with
  | none => simp at hv2
  | some x =>
      by_cases hx : x = 0
      · simp [hx] at hv2
      · simp only [Option.some_bind, if_neg hx, Option.some_inj] at hv2
        exact hv2 ▸ hx

/-- Lookup success means the looked-up pair is in the series. -/
lemma lookupW_mem {b : List (ℕ × Option ℚ)} {w : ℕ} {v : Option ℚ}
    (h : lookupW w b = some v) : (w, v) ∈ b := by
  unfold lookupW at h
  rcases Option.map_eq_some'.mp h with ⟨⟨w1, v1⟩, hfind, hsnd⟩
  have hw : w1 = w := by simpa using List.find?_some hfind
  have hv : v1 = v := hsnd
  have hmem := List.mem_of_find?_eq_some hfind
  rw [hw, hv] at hmem
  exact hmem

/-- Elimination for membership in the outright-forward column: a defined
forward value decomposes as joined spot plus scaled, zero-cleaned points. -/
lemma mem_forwardCol {spotRows ptsRows : List (ℕ × ℚ)} {w : ℕ} {f : ℚ}
    (h : (w, some f) ∈ forwardCol spotRows ptsRows) :
    ∃ s p, (w, some s) ∈ toWeekly spotRows ∧
      (w, some p) ∈ replaceZero (toWeekly ptsRows) ∧ f = s + p / 100 := by
  rcases List.mem_map.mp h with ⟨⟨w0, vs, vp⟩, hj, hv⟩
  have hw : w0 = w := congrArg Prod.fst hv
  have hcell : addCell vs (divCell 100 vp) = some f := congrArg Prod.snd hv
  subst hw
  rcases List.mem_filterMap.mp hj with ⟨⟨w1, va⟩, ha, hlook⟩
  rcases Option.map_eq_some'.mp hlook with ⟨vb, hfindeq, htup⟩
  obtain ⟨hw1, hva, hvb⟩ : w1 = w0 ∧ va = vs ∧ vb = vp := by
    simpa [Prod.ext_iff] using htup
  subst hw1 hva hvb
  cases va with
  | none =>
      exfalso
      cases vb <;> simp [addCell, divCell] at hcell
  | some s =>
      cases vb with
      | none => exfalso; simp [addCell, divCell] at hcell
      | some p =>
          have hf : s + p / 100 = f := by
            simpa [addCell, divCell] using hcell
          exact ⟨s, p, ha, lookupW_mem hfindeq, hf.symm⟩

/-! ## Claim theorems -/

/-- Claim C1 (code bug): the forward target attached to week `t` by
`rolling(h).sum().shift(-h+1)` is the sum of the total returns of weeks
`t .. t+h-1`, not of weeks `t+1 .. t+h` as the surrounding comment and the
spec state.  On the spec's own example `[0.01, -0.02, 0.03, 0.00, 0.015]`
with horizon 4, week 0 receives `0.02` (the sum of weeks 0-3) while the sum
of weeks 1-4 is `0.025`. -/
theorem ret_next_h_uses_current_week :
    ret_next_h HORIZON_WEEKS [1/100, -1/50, 3/100, 0, 3/200]
      = [some (1/50), some (1/40), none, none, none]
    ∧ ([(1:ℚ)/100, -1/50, 3/100, 0, 3/200].take 4).sum = 1/50
    ∧ (([(1:ℚ)/100, -1/50, 3/100, 0, 3/200].drop 1).take 4).sum = 1/40
    ∧ (1/50 : ℚ) ≠ 1/40 := by
  refine ⟨by with_unfolding_all rfl, by norm_num, by norm_num, by norm_num⟩

/-- Claim C6: each row of the synthetic cross series pairs a parsed AUDUSD
date with the product of the two same-row prices, and `0.65 * 150.0 = 97.5`. -/
theorem AUDJPY_spot_is_product :
    (∀ (raw : List SpotRaw) (d : ℕ) (p : ℚ), (d, p) ∈ buildSpotDaily raw →
        ∃ (a u : ℚ) (du : Option ℕ),
          ((some d, some a, du, some u) : SpotRaw) ∈ raw ∧ p = a * u)
    ∧ buildSpotDaily [(some 0, some (13/20), some 0, some 150)] = [(0, 195/2)]
    ∧ (195/2 : ℚ) = 975/10 := by
  refine ⟨?_, by with_unfolding_all rfl, by norm_num⟩
  intro raw d p hmem
  rcases List.mem_filterMap.mp hmem with ⟨r, hr, hfr⟩
  obtain ⟨od, oa, odu, ou⟩ := r
  cases od <;> cases oa <;> cases ou <;>
    simp only [spotRowFun, reduceCtorEq] at hfr
  rename_i d0 a0 u0
  obtain ⟨hd, hp⟩ : d0 = d ∧ a0 * u0 = p := by
    simpa [Prod.ext_iff] using hfr
  subst hd
  exact ⟨a0, u0, odu, hr, hp.symm⟩

/-- Claim C6 witness at a concrete input. -/
theorem AUDJPY_spot_is_product_witness :
    ((3, (10 : ℚ)) ∈ buildSpotDaily [(some 3, some 2, none, some 5)])
    ∧ ∃ (a u : ℚ) (du : Option ℕ),
        ((some 3, some a, du, some u) : SpotRaw) ∈
          [((some 3, some 2, none, some 5) : SpotRaw)] ∧ (10 : ℚ) = a * u :=
  ⟨of_decide_eq_true (by with_unfolding_all rfl),
   AUDJPY_spot_is_product.1 _ 3 10 (of_decide_eq_true (by with_unfolding_all rfl))⟩

/-- Claim C10: the spot builder pairs the two currency series by row
position; the USDJPY date column is discarded unparsed, so replacing it by
anything leaves the output unchanged, and a row whose USDJPY date disagrees
with its AUDUSD date still multiplies the two same-row prices. -/
theorem spot_pairs_by_row_position :
    (∀ (raw : List SpotRaw) (f : SpotRaw → Option ℕ),
        buildSpotDaily (raw.map fun r => (r.1, r.2.1, f r, r.2.2.2))
          = buildSpotDaily raw)
    ∧ buildSpotDaily [(some 5, some 2, some 999, some 3)] = [(5, 6)] := by
  refine ⟨?_, by with_unfolding_all rfl⟩
  intro raw f
  rw [buildSpotDaily, buildSpotDaily, List.filterMap_map]
  apply List.filterMap_congr
  intro r _
  obtain ⟨od, oa, odu, ou⟩ := r
  cases od <;> cases oa <;> cases ou <;> rfl

/-- Claim C7: forward points are scaled by the fixed factor 100 and added to
the joined weekly spot; `-54.31` pips becomes `-0.5431` price units, and with
a spot of `97.5` the outright forward is `96.9569`. -/
theorem forward_points_scale :
    (∀ (spotRows ptsRows : List (ℕ × ℚ)) (w : ℕ) (f : ℚ),
        (w, some f) ∈ forwardCol spotRows ptsRows →
        ∃ s p, (w, some s) ∈ toWeekly spotRows ∧
          (w, some p) ∈ replaceZero (toWeekly ptsRows) ∧ f = s + p / 100)
    ∧ pointsPriceCol [(0, 975/10)] [(0, -5431/100)] = [(4, some (-5431/10000))]
    ∧ forwardCol [(0, 975/10)] [(0, -5431/100)] = [(4, some (969569/10000))] :=
  ⟨fun _ _ _ _ h => mem_forwardCol h,
   by with_unfolding_all rfl, by with_unfolding_all rfl⟩

/-- Claim C7 witness at a concrete input. -/
theorem forward_points_scale_witness :
    (((4 : ℕ), some ((969569 : ℚ)/10000)) ∈
        forwardCol [(0, 975/10)] [(0, -5431/100)])
    ∧ ∃ s p, ((4 : ℕ), some s) ∈ toWeekly [((0 : ℕ), (975 : ℚ)/10)] ∧
        ((4 : ℕ), some p) ∈ replaceZero (toWeekly [((0 : ℕ), (-5431 : ℚ)/100)]) ∧
        (969569 : ℚ)/10000 = s + p / 100 := by
  have hmem : (((4 : ℕ), some ((969569 : ℚ)/10000)) ∈
      forwardCol [(0, 975/10)] [(0, -5431/100)]) := by
    rw [show forwardCol [(0, (975:ℚ)/10)] [(0, (-5431:ℚ)/100)]
          = [(4, some ((969569:ℚ)/10000))] from by with_unfolding_all rfl]
    exact List.Mem.head _
  exact ⟨hmem, forward_points_scale.1 _ _ 4 _ hmem⟩

/-- Claim C8: an exact-zero weekly points value is replaced by a missing
marker before the scaling and the addition, so the zero-cleaned points series
never holds a zero and every defined outright forward decomposes with a
nonzero points value. -/
theorem zero_points_never_contribute :
    (∀ (ptsRows : List (ℕ × ℚ)) (w : ℕ),
        ((w, some (0:ℚ)) ∈ replaceZero (toWeekly ptsRows)) → False)
    ∧ (∀ (spotRows ptsRows : List (ℕ × ℚ)) (w : ℕ) (f : ℚ),
        (w, some f) ∈ forwardCol spotRows ptsRows →
        ∃ s p, (w, some s) ∈ toWeekly spotRows ∧
          (w, some p) ∈ replaceZero (toWeekly ptsRows) ∧ p ≠ 0 ∧
          f = s + p / 100) := by
  constructor
  · intro ptsRows w h
    exact mem_replaceZero_ne_zero h rfl
  · intro spotRows ptsRows w f h
    obtain ⟨s, p, hs, hp, hf⟩ := mem_forwardCol h
    exact ⟨s, p, hs, hp, mem_replaceZero_ne_zero hp, hf⟩

/-- Claim C8 witness at a concrete input. -/
theorem zero_points_never_contribute_witness :
    (((4 : ℕ), some ((969569 : ℚ)/10000)) ∈
        forwardCol [(0, 975/10)] [(0, -5431/100)])
    ∧ ∃ s p, ((4 : ℕ), some s) ∈ toWeekly [((0 : ℕ), (975 : ℚ)/10)] ∧
        ((4 : ℕ), some p) ∈ replaceZero (toWeekly [((0 : ℕ), (-5431 : ℚ)/100)]) ∧
        p ≠ 0 ∧ (969569 : ℚ)/10000 = s + p / 100 := by
  have hmem : (((4 : ℕ), some ((969569 : ℚ)/10000)) ∈
      forwardCol [(0, 975/10)] [(0, -5431/100)]) := by
    rw [show forwardCol [(0, (975:ℚ)/10)] [(0, (-5431:ℚ)/100)]
          = [(4, some ((969569:ℚ)/10000))] from by with_unfolding_all rfl]
    exact List.Mem.head _
  exact ⟨hmem, zero_points_never_contribute.2 _ _ 4 _ hmem⟩


/-! ## Fear z-score claims -/

/-- A list of nonnegative rationals with zero sum is all zeros. -/
lemma all_zero_of_sum_eq_zero {l : List ℚ} (h0 : ∀ x ∈ l, 0 ≤ x)
    (hs : l.sum = 0) : ∀ x ∈ l, x = 0 := by
  induction l with
  | nil => simp
  | cons a as ih =>
      have ha : 0 ≤ a := h0 a (List.mem_cons_self a as)
      have has : 0 ≤ as.sum :=
        List.sum_nonneg fun x hx => h0 x (List.mem_cons_of_mem _ hx)
      rw [List.sum_cons] at hs
      have ha0 : a = 0 := le_antisymm (by linarith) ha
      intro x hx
      rcases List.mem_cons.mp hx with rfl | hx
      · exact ha0
      · exact ih (fun y hy => h0 y (List.mem_cons_of_mem _ hy)) (by linarith) x hx

/-- Certifies the missing-marker modelling of the `0/0` branch of the z-score:
when the expanding variance is zero, every window value equals the expanding
mean, so the z-score numerator of the source is exactly `0`. -/
lemma expVar_zero_numerator (minp : ℕ) (l : List ℚ) (t : ℕ)
    (h : expVar minp l t = some 0) :
    ∀ x ∈ l.take (t + 1),
      x = (l.take (t + 1)).sum / (l.take (t + 1)).length := by
  unfold expVar at h
  split at h
  · rename_i hc
    have hs : ((l.take (t + 1)).map
        fun x => (x - (l.take (t + 1)).sum / (l.take (t + 1)).length) ^ 2).sum
        / (((l.take (t + 1)).length : ℚ) - 1) = 0 := by
      simpa using h
    have hden : (((l.take (t + 1)).length : ℚ) - 1) ≠ 0 := by
      have : (2 : ℚ) ≤ ((l.take (t + 1)).length : ℚ) := by exact_mod_cast hc.2
      intro hz; rw [sub_eq_zero] at hz; rw [hz] at this; norm_num at this
    have hsum : ((l.take (t + 1)).map
        fun x => (x - (l.take (t + 1)).sum / (l.take (t + 1)).length) ^ 2).sum
        = 0 := by
      rcases div_eq_zero_iff.mp hs with h1 | h1
      · exact h1
      · exact absurd h1 hden
    intro x hx
    have hsq : (x - (l.take (t + 1)).sum / (l.take (t + 1)).length) ^ 2 = 0 := by
      refine all_zero_of_sum_eq_zero (fun y hy => ?_) hsum _
        (List.mem_map_of_mem _ hx)
      rcases List.mem_map.mp hy with ⟨z, _, rfl⟩
      exact sq_nonneg _
    have := pow_eq_zero_iff (n := 2) (by norm_num) |>.mp hsq
    linarith [sub_eq_zero.mp this]
  · exact absurd h (by simp)

/-- Claim C2: with a configured minimum history `minp` (the source uses 52),
the expanding z-score at week `t` is defined exactly when at least `minp`
observations have accumulated and the expanding variance is nonzero, and it is
computed from the history up to and including week `t` only: truncating the
series right after week `t` leaves the value unchanged (no future data). -/
theorem fear_z_expanding_window (minp : ℕ) (l : List ℚ) (t : ℕ)
    (h2 : 2 ≤ minp) (ht : t < l.length) :
    ((fear_z minp l t).isSome ↔ minp ≤ t + 1 ∧ expVar minp l t ≠ some 0)
    ∧ fear_z minp l t = fear_z minp (l.take (t + 1)) t := by
  have hlen : (l.take (t + 1)).length = t + 1 := by
    rw [List.length_take]; omega
  have hget : l[t]? = some (l.get ⟨t, ht⟩) := by
    rw [List.get_eq_getElem]
    exact List.getElem?_eq_getElem ht
  have htake_get : (l.take (t + 1))[t]? = l[t]? :=
    List.getElem?_take_of_lt (Nat.lt_succ_self t)
  have htt : (l.take (t + 1)).take (t + 1) = l.take (t + 1) := by
    rw [List.take_take, min_self]
  have hmean_pref : expMean minp (l.take (t + 1)) t = expMean minp l t := by
    simp only [expMean, htt]
  have hvar_pref : expVar minp (l.take (t + 1)) t = expVar minp l t := by
    simp only [expVar, htt]
  constructor
  · by_cases hm : minp ≤ t + 1
    · have hmean : expMean minp l t
          = some ((l.take (t + 1)).sum / ((l.take (t + 1)).length : ℚ)) := by
        simp only [expMean, hlen]
        rw [if_pos hm]
      have h2t : 2 ≤ t + 1 := le_trans h2 hm
      have hvar : expVar minp l t
          = some ((((l.take (t + 1)).map
              fun x => (x - (l.take (t + 1)).sum /
                ((l.take (t + 1)).length : ℚ)) ^ 2).sum)
              / (((l.take (t + 1)).length : ℚ) - 1)) := by
        simp only [expVar, hlen]
        rw [if_pos ⟨hm, h2t⟩]
      rw [fear_z, hget, hmean, hvar]
      by_cases hv : (((l.take (t + 1)).map
          fun x => (x - (l.take (t + 1)).sum /
            ((l.take (t + 1)).length : ℚ)) ^ 2).sum)
          / (((l.take (t + 1)).length : ℚ) - 1) = 0
      · simp [hv, hm]
      · simp [hv, hm]
    · have hmean : expMean minp l t = none := by
        simp only [expMean, hlen]
        rw [if_neg hm]
      rw [fear_z, hget, hmean]
      simp [hm]
  · rw [fear_z, fear_z, hget, htake_get, hget, hmean_pref, hvar_pref]

/-- Claim C2 witness at a concrete input (`minp = 2`, three observations). -/
theorem fear_z_expanding_window_witness :
    (2 ≤ 2 ∧ 2 < ([1, 2, 3] : List ℚ).length)
    ∧ (((fear_z 2 [1, 2, 3] 2).isSome ↔
          2 ≤ 2 + 1 ∧ expVar 2 [1, 2, 3] 2 ≠ some 0)
        ∧ fear_z 2 [1, 2, 3] 2 = fear_z 2 (([1, 2, 3] : List ℚ).take (2 + 1)) 2) :=
  ⟨⟨le_refl 2, by decide⟩,
   fear_z_expanding_window 2 [1, 2, 3] 2 (le_refl 2) (by decide)⟩

/-- Second-field-missing rows are dropped by `rowComplete`. -/
lemma rowComplete_none_of_second {α β γ δ : Type} (o1 : Option α)
    (o3 : Option γ) (o4 : Option δ) :
    rowComplete (o1, (none : Option β), o3, o4) = none := by
  cases o1 <;> cases o3 <;> cases o4 <;> rfl

/-- Claim C9: a zero expanding variance makes the z-score a missing marker
(the source's `0/0 = NaN`), not a zero and not an exception; and a row whose
`fear_z` cell is missing contributes nothing to the aligned table feeding the
event study and the regressions. -/
theorem fear_z_zero_variance_dropped :
    (∀ (minp : ℕ) (l : List ℚ) (t : ℕ),
        expVar minp l t = some 0 → fear_z minp l t = none)
    ∧ (∀ (α β γ δ : Type)
        (pre post : List (Option α × Option β × Option γ × Option δ))
        (r : Option α × Option β × Option γ × Option δ), r.2.1 = none →
        dropnaRows (pre ++ r :: post) = dropnaRows pre ++ dropnaRows post) := by
  constructor
  · intro minp l t h
    cases hget : l[t]? with
    | none => rw [fear_z, hget]
    | some x =>
        cases hmean : expMean minp l t with
        | none => rw [fear_z, hget, hmean]
        | some m => rw [fear_z, hget, hmean, h]; simp
  · intro α β γ δ pre post r hr
    obtain ⟨o1, o2, o3, o4⟩ := r
    have ho2 : o2 = none := hr
    subst ho2
    simp [dropnaRows, List.filterMap_append, List.filterMap_cons,
      rowComplete_none_of_second]

/-- Claim C9 witness at a concrete input: two equal observations give
variance zero, and a second-cell-missing row drops out of the aligned rows. -/
theorem fear_z_zero_variance_dropped_witness :
    (expVar 2 [5, 5] 1 = some 0 ∧ fear_z 2 [5, 5] 1 = none)
    ∧ (((some 2, none, some 2, some 2) :
          Option ℕ × Option ℕ × Option ℕ × Option ℕ).2.1 = none
        ∧ dropnaRows ([((some 1 : Option ℕ), (some 1 : Option ℕ),
              (some 1 : Option ℕ), (some 1 : Option ℕ))] ++
              ((some 2, none, some 2, some 2) :
                Option ℕ × Option ℕ × Option ℕ × Option ℕ) :: [])
          = dropnaRows [((some 1 : Option ℕ), (some 1 : Option ℕ),
              (some 1 : Option ℕ), (some 1 : Option ℕ))]
            ++ dropnaRows ([] :
              List (Option ℕ × Option ℕ × Option ℕ × Option ℕ))) := by
  have hv : expVar 2 [5, 5] 1 = some 0 := by with_unfolding_all rfl
  exact ⟨⟨hv, fear_z_zero_variance_dropped.1 2 [5, 5] 1 hv⟩,
    rfl, fear_z_zero_variance_dropped.2 ℕ ℕ ℕ ℕ _ _ _ rfl⟩

/-! ## Weekly resampling claims -/

/-- Day `d` is at most its Friday bin label. -/
lemma weekOf_ge (d : ℕ) : d ≤ weekOf d := by
  unfold weekOf; omega

/-- Every bin label is a Friday. -/
lemma weekOf_mod (d : ℕ) : weekOf d % 7 = 4 := by
  unfold weekOf; omega

/-- Bin labels are monotone in the date. -/
lemma weekOf_mono {d e : ℕ} (h : d ≤ e) : weekOf d ≤ weekOf e := by
  unfold weekOf; omega

/-- Membership of a date in the accumulator-based deduplication. -/
lemma mem_dedupFirst_iff (rows : List (ℕ × ℚ)) (seen : List ℕ) (d : ℕ) :
    (∃ q, (d, q) ∈ dedupFirst seen rows) ↔
      (d ∉ seen ∧ ∃ q, (d, q) ∈ rows) := by
  induction rows generalizing seen with
  | nil => simp [dedupFirst]
  | cons r rs ih =>
      obtain ⟨d0, q0⟩ := r
      by_cases hd0 : d0 ∈ seen
      · rw [dedupFirst, if_pos hd0, ih]
        constructor
        · rintro ⟨hs, q, hq⟩
          exact ⟨hs, q, List.mem_cons_of_mem _ hq⟩
        · rintro ⟨hs, q, hq⟩
          rcases List.mem_cons.mp hq with heq | hmem
          · obtain ⟨h1, h2⟩ := Prod.mk.injEq .. ▸ heq
            exact absurd (h1 ▸ hd0) (h1 ▸ hs)
          · exact ⟨hs, q, hmem⟩
      · rw [dedupFirst, if_neg hd0]
        by_cases hdd : d = d0
        · subst hdd
          constructor
          · intro _
            exact ⟨hd0, q0, List.mem_cons_self _ _⟩
          · intro _
            exact ⟨q0, List.mem_cons_self _ _⟩
        · constructor
          · rintro ⟨q, hq⟩
            rcases List.mem_cons.mp hq with heq | hmem
            · exact absurd (congrArg Prod.fst heq) hdd
            · obtain ⟨hs, q1, hq1⟩ := (ih (d0 :: seen)).mp ⟨q, hmem⟩
              refine ⟨fun hds => hs (List.mem_cons_of_mem _ hds),
                q1, List.mem_cons_of_mem _ hq1⟩
          · rintro ⟨hs, q, hq⟩
            rcases List.mem_cons.mp hq with heq | hmem
            · exact absurd (congrArg Prod.fst heq) hdd
            · obtain ⟨q1, hq1⟩ := (ih (d0 :: seen)).mpr
                ⟨by simp [hdd, hs], q, hmem⟩
              exact ⟨q1, List.mem_cons_of_mem _ hq1⟩

/-- Deduplication only drops rows. -/
lemma dedupFirst_subset (rows : List (ℕ × ℚ)) (seen : List ℕ) :
    ∀ r ∈ dedupFirst seen rows, r ∈ rows := by
  induction rows generalizing seen with
  | nil => simp [dedupFirst]
  | cons r rs ih =>
      intro x hx
      rw [dedupFirst] at hx
      by_cases hd : r.1 ∈ seen
      · rw [if_pos hd] at hx
        exact List.mem_cons_of_mem _ (ih seen x hx)
      · rw [if_neg hd] at hx
        rcases List.mem_cons.mp hx with heq | hmem
        · exact heq ▸ List.mem_cons_self _ _
        · exact List.mem_cons_of_mem _ (ih _ x hmem)

/-- Sorting is a permutation, so row membership is unchanged. -/
lemma mem_sortRows {r : ℕ × ℚ} {rows : List (ℕ × ℚ)} :
    r ∈ sortRows rows ↔ r ∈ rows :=
  (List.perm_insertionSort _ rows).mem_iff

/-- The cleaned (sorted, deduplicated) table covers a weekly bin exactly when
the raw table does. -/
lemma week_mem_cleaned (rows : List (ℕ × ℚ)) (w : ℕ) :
    (∃ r ∈ dedupFirst [] (sortRows rows), weekOf r.1 = w) ↔
      (∃ r ∈ rows, weekOf r.1 = w) := by
  constructor
  · rintro ⟨r, hr, hw⟩
    exact ⟨r, mem_sortRows.mp (dedupFirst_subset _ _ _ hr), hw⟩
  · rintro ⟨⟨d, q⟩, hr, hw⟩
    obtain ⟨q1, hq1⟩ := (mem_dedupFirst_iff (sortRows rows) [] d).mpr
      ⟨List.not_mem_nil d, q, mem_sortRows.mpr hr⟩
    exact ⟨(d, q1), hq1, hw⟩

/-- Definedness of the last-observation aggregation of a weekly bin. -/
lemma lastObs_isSome_iff (rows : List (ℕ × ℚ)) (w : ℕ) :
    (lastObsInWeek rows w).isSome ↔ ∃ r ∈ rows, weekOf r.1 = w := by
  unfold lastObsInWeek
  rw [Option.isSome_map', List.getLast?_isSome, ne_eq, List.filter_eq_nil_iff]
  simp only [beq_iff_eq]
  push_neg
  constructor
  · rintro ⟨r, hr, hw⟩
    exact ⟨r, hr, hw⟩
  · rintro ⟨r, hr, hw⟩
    exact ⟨r, hr, hw⟩

/-- A defined weekly aggregate is the value of some row of that week. -/
lemma lastObs_eq_some (rows : List (ℕ × ℚ)) (w : ℕ) (x : ℚ)
    (h : lastObsInWeek rows w = some x) :
    ∃ r ∈ rows, weekOf r.1 = w ∧ r.2 = x := by
  unfold lastObsInWeek at h
  rcases Option.map_eq_some'.mp h with ⟨r, hlast, hsnd⟩
  have hmem := List.mem_of_getLast?_eq_some hlast
  have hfil := List.mem_filter.mp hmem
  exact ⟨r, hfil.1, by simpa using hfil.2, hsnd⟩

/-- Every observed week has its bin label among the anchors. -/
lemma weekOf_mem_anchors {rows : List (ℕ × ℚ)} {r : ℕ × ℚ} (hr : r ∈ rows) :
    weekOf r.1 ∈ weeklyAnchors rows := by
  have hmemd : r.1 ∈ rows.map Prod.fst := List.mem_map_of_mem _ hr
  obtain ⟨mn, hmn⟩ := Option.isSome_iff_exists.mp (List.isSome_min?_of_mem hmemd)
  obtain ⟨mx, hmx⟩ := Option.isSome_iff_exists.mp (List.isSome_max?_of_mem hmemd)
  obtain ⟨-, hmnle⟩ := List.min?_eq_some_iff'.mp hmn
  obtain ⟨-, hmxge⟩ := List.max?_eq_some_iff'.mp hmx
  have h1 : weekOf mn ≤ weekOf r.1 := weekOf_mono (hmnle _ hmemd)
  have h2 : weekOf r.1 ≤ weekOf mx := weekOf_mono (hmxge _ hmemd)
  have e1 := weekOf_mod mn
  have e2 := weekOf_mod r.1
  have e3 := weekOf_mod mx
  unfold weeklyAnchors
  rw [hmn, hmx]
  rw [List.mem_map]
  refine ⟨(weekOf r.1 - weekOf mn) / 7, List.mem_range.mpr (by omega), by omega⟩

/-- Shape of a row of the weekly resample. -/
lemma mem_resampleLastW {rows : List (ℕ × ℚ)} {w : ℕ} {v : Option ℚ}
    (h : (w, v) ∈ resampleLastW rows) :
    w ∈ weeklyAnchors rows ∧ v = lastObsInWeek rows w := by
  rcases List.mem_map.mp h with ⟨w1, hw1, heq⟩
  obtain ⟨h1, h2⟩ : w1 = w ∧ lastObsInWeek rows w1 = v := by
    simpa [Prod.ext_iff] using heq
  exact ⟨h1 ▸ hw1, h1 ▸ h2.symm⟩

/-- Claim C5 counterexample: with observations only on days 0 and 14, the
weekly resample materialises the empty middle week as a missing-valued row
`(11, none)`, although no observation falls in that bin — the output is not
restricted to observed weeks. -/
theorem toWeekly_creates_gap_rows :
    ((11, (none : Option ℚ)) ∈ toWeekly [(0, (1:ℚ)), (14, 2)])
    ∧ (∀ r ∈ [((0:ℕ), (1:ℚ)), (14, 2)], weekOf r.1 ≠ 11) := by
  constructor
  · rw [show toWeekly [(0, (1:ℚ)), (14, 2)]
        = [(4, some 1), (11, none), (18, some 2)] from by with_unfolding_all rfl]
    exact List.mem_cons_of_mem _ (List.mem_cons_self _ _)
  · intro r hr
    rcases List.mem_cons.mp hr with rfl | hr
    · decide
    · rcases List.mem_cons.mp hr with rfl | hr
      · decide
      · exact absurd hr (List.not_mem_nil r)

/-- Claim C5 as amended: the weekly resample keeps one row per weekly bin
from the first to the last observed week; a row's value is defined exactly
when its week holds an observation (gap weeks appear with a missing marker,
never filled), a defined value is the value of an observation of that week,
and every observed week does appear with a defined value. -/
theorem toWeekly_weeks_amended (rows : List (ℕ × ℚ)) :
    (∀ w v, (w, v) ∈ toWeekly rows →
        ((v.isSome ↔ ∃ r ∈ rows, weekOf r.1 = w)
          ∧ ∀ x, v = some x → ∃ r ∈ rows, weekOf r.1 = w ∧ r.2 = x))
    ∧ (∀ r ∈ rows, ∃ v, (weekOf r.1, v) ∈ toWeekly rows ∧ v.isSome) := by
  constructor
  · intro w v hv
    obtain ⟨-, hlast⟩ := mem_resampleLastW hv
    constructor
    · rw [hlast, lastObs_isSome_iff, week_mem_cleaned]
    · intro x hx
      obtain ⟨r, hr, hw, hval⟩ := lastObs_eq_some _ _ x (hlast.symm.trans hx)
      exact ⟨r, mem_sortRows.mp (dedupFirst_subset _ _ _ hr), hw, hval⟩
  · intro r hr
    obtain ⟨q, hq⟩ := (mem_dedupFirst_iff (sortRows rows) [] r.1).mpr
      ⟨List.not_mem_nil r.1, r.2, mem_sortRows.mpr hr⟩
    refine ⟨lastObsInWeek (dedupFirst [] (sortRows rows)) (weekOf r.1), ?_, ?_⟩
    · unfold toWeekly resampleLastW
      have hanch : weekOf ((r.1, q) : ℕ × ℚ).1
          ∈ weeklyAnchors (dedupFirst [] (sortRows rows)) :=
        weekOf_mem_anchors hq
      exact List.mem_map_of_mem _ hanch
    · rw [lastObs_isSome_iff]
      exact ⟨(r.1, q), hq, rfl⟩

/-- Claim C5 (amended) witness at a concrete input. -/
theorem toWeekly_weeks_amended_witness :
    (((4 : ℕ), some (1 : ℚ)) ∈ toWeekly [(0, (1:ℚ)), (14, 2)]
      ∧ (((some (1 : ℚ)).isSome ↔
            ∃ r ∈ [((0:ℕ), (1:ℚ)), (14, 2)], weekOf r.1 = 4)
          ∧ ∀ x, (some (1 : ℚ)) = some x →
              ∃ r ∈ [((0:ℕ), (1:ℚ)), (14, 2)], weekOf r.1 = 4 ∧ r.2 = x))
    ∧ (((0:ℕ), (1:ℚ)) ∈ [((0:ℕ), (1:ℚ)), (14, 2)]
        ∧ ∃ v, (weekOf 0, v) ∈ toWeekly [(0, (1:ℚ)), (14, 2)] ∧ v.isSome) := by
  have hmem : ((4 : ℕ), some (1 : ℚ)) ∈ toWeekly [(0, (1:ℚ)), (14, 2)] := by
    rw [show toWeekly [(0, (1:ℚ)), (14, 2)]
        = [(4, some 1), (11, none), (18, some 2)] from by with_unfolding_all rfl]
    exact List.mem_cons_self _ _
  have hr : ((0:ℕ), (1:ℚ)) ∈ [((0:ℕ), (1:ℚ)), (14, 2)] := List.mem_cons_self _ _
  exact ⟨⟨hmem, (toWeekly_weeks_amended [(0, (1:ℚ)), (14, 2)]).1 4 (some 1) hmem⟩,
    ⟨hr, (toWeekly_weeks_amended [(0, (1:ℚ)), (14, 2)]).2 (0, 1) hr⟩⟩

/-! ## Event-study warning-bucket claims -/

/-- Position and index facts of the 10% quantile on a nonempty column. -/
lemma quantileIdx_facts (l : List ℚ) (hl : l ≠ []) :
    quantileIdx l WARNING_QUANTILE = (l.length - 1) / 10
    ∧ quantileIdx l WARNING_QUANTILE < l.length
    ∧ 0 ≤ quantilePos l WARNING_QUANTILE := by
  have hn : 1 ≤ l.length := List.length_pos.mpr hl
  have hcast : ((l.length : ℚ) - 1) = ((l.length - 1 : ℕ) : ℚ) := by
    rw [Nat.cast_sub hn, Nat.cast_one]
  have heq : quantileIdx l WARNING_QUANTILE = (l.length - 1) / 10 := by
    unfold quantileIdx quantilePos WARNING_QUANTILE
    rw [hcast, mul_one_div, Nat.floor_div_ofNat, Nat.floor_natCast]
  refine ⟨heq, by omega, ?_⟩
  unfold quantilePos
  have h1 : (1 : ℚ) ≤ (l.length : ℚ) := by exact_mod_cast hn
  have h2 : (0 : ℚ) ≤ WARNING_QUANTILE := by unfold WARNING_QUANTILE; norm_num
  exact mul_nonneg (by linarith) h2

/-- The lower order statistic never exceeds the interpolated quantile. -/
lemma lower_stat_le_quantile (l : List ℚ) (hl : l ≠ [])
    (hj : quantileIdx l WARNING_QUANTILE < (l.insertionSort (· ≤ ·)).length) :
    (l.insertionSort (· ≤ ·))[quantileIdx l WARNING_QUANTILE] ≤
      quantileLinear l WARNING_QUANTILE := by
  obtain ⟨-, -, hpos⟩ := quantileIdx_facts l hl
  have hg0 : ((quantileIdx l WARNING_QUANTILE : ℕ) : ℚ)
      ≤ quantilePos l WARNING_QUANTILE := by
    unfold quantileIdx
    exact Nat.floor_le hpos
  unfold quantileLinear
  rw [List.getElem?_eq_getElem hj]
  cases hj1 : (l.insertionSort (· ≤ ·))[quantileIdx l WARNING_QUANTILE + 1]? with
  | none => simp
  | some b =>
      obtain ⟨hj1lt, hb⟩ := List.getElem?_eq_some_iff.mp hj1
      have hab : (l.insertionSort (· ≤ ·))[quantileIdx l WARNING_QUANTILE] ≤ b := by
        rw [← hb]
        have := (List.sorted_insertionSort (· ≤ ·) l).rel_get_of_le
          (show (⟨quantileIdx l WARNING_QUANTILE, hj⟩ :
              Fin (l.insertionSort (· ≤ ·)).length)
            ≤ ⟨quantileIdx l WARNING_QUANTILE + 1, hj1lt⟩ from by
              simp [Fin.mk_le_mk])
        simpa using this
      dsimp only
      nlinarith

/-- With pairwise-distinct values the interpolated quantile stays strictly
below the upper order statistic. -/
lemma quantile_lt_upper_stat (l : List ℚ) (hl : l ≠ []) (hnd : l.Nodup)
    (hj1 : quantileIdx l WARNING_QUANTILE + 1 <
      (l.insertionSort (· ≤ ·)).length) :
    quantileLinear l WARNING_QUANTILE <
      (l.insertionSort (· ≤ ·))[quantileIdx l WARNING_QUANTILE + 1] := by
  obtain ⟨-, -, hpos⟩ := quantileIdx_facts l hl
  have hj : quantileIdx l WARNING_QUANTILE <
      (l.insertionSort (· ≤ ·)).length := by omega
  have hg0 : ((quantileIdx l WARNING_QUANTILE : ℕ) : ℚ)
      ≤ quantilePos l WARNING_QUANTILE := by
    unfold quantileIdx
    exact Nat.floor_le hpos
  have hg1 : quantilePos l WARNING_QUANTILE <
      (quantileIdx l WARNING_QUANTILE : ℚ) + 1 := by
    unfold quantileIdx
    exact_mod_cast Nat.lt_floor_add_one (quantilePos l WARNING_QUANTILE)
  have hsnd : (l.insertionSort (· ≤ ·)).Nodup :=
    (List.perm_insertionSort (· ≤ ·) l).nodup_iff.mpr hnd
  have hle : (l.insertionSort (· ≤ ·))[quantileIdx l WARNING_QUANTILE]
      ≤ (l.insertionSort (· ≤ ·))[quantileIdx l WARNING_QUANTILE + 1] := by
    have := (List.sorted_insertionSort (· ≤ ·) l).rel_get_of_le
      (show (⟨quantileIdx l WARNING_QUANTILE, hj⟩ :
          Fin (l.insertionSort (· ≤ ·)).length)
        ≤ ⟨quantileIdx l WARNING_QUANTILE + 1, hj1⟩ from by
          simp [Fin.mk_le_mk])
    simpa using this
  have hne : (l.insertionSort (· ≤ ·))[quantileIdx l WARNING_QUANTILE]
      ≠ (l.insertionSort (· ≤ ·))[quantileIdx l WARNING_QUANTILE + 1] := by
    intro heq
    have := (hsnd.getElem_inj_iff).mp heq
    omega
  have hlt := lt_of_le_of_ne hle hne
  unfold quantileLinear
  rw [List.getElem?_eq_getElem hj, List.getElem?_eq_getElem hj1]
  dsimp only
  nlinarith

/-- Claim C3 counterexample: with 20 tied change-in-fear values the inclusive
threshold `dfear <= quantile` marks all 20 weeks as warnings, far more than
`ceil(20 * 0.10) = 2`. -/
theorem warning_bucket_all_ties :
    warningCount (List.replicate 20 (0 : ℚ)) = 20
    ∧ (List.replicate 20 (0 : ℚ)).length = 20
    ∧ ¬ (warningCount (List.replicate 20 (0 : ℚ)) ≤ (20 + 9) / 10) := by
  refine ⟨by with_unfolding_all rfl, by simp, ?_⟩
  rw [show warningCount (List.replicate 20 (0 : ℚ)) = 20 from by
    with_unfolding_all rfl]
  omega

/-- Claim C3 as amended: on a nonempty aligned column of `N` change-in-fear
values, the inclusive quantile rule puts at least `floor(N * 0.10)` weeks in
the warning bucket; the claimed upper bound `ceil(N * 0.10)` holds whenever
the values are pairwise distinct, but ties at the quantile boundary can push
the bucket above it (up to all `N` weeks, see the counterexample). -/
theorem warning_bucket_bounds (l : List ℚ) (hl : l ≠ []) :
    l.length / 10 ≤ warningCount l
    ∧ (l.Nodup → warningCount l ≤ (l.length + 9) / 10) := by
  classical
  obtain ⟨hjeq, hjlt, -⟩ := quantileIdx_facts l hl
  have hn : 1 ≤ l.length := List.length_pos.mpr hl
  have hperm : List.Perm (l.insertionSort (· ≤ ·)) l :=
    List.perm_insertionSort (· ≤ ·) l
  have hslen : (l.insertionSort (· ≤ ·)).length = l.length := hperm.length_eq
  have hsorted : (l.insertionSort (· ≤ ·)).Sorted (· ≤ ·) :=
    List.sorted_insertionSort (· ≤ ·) l
  have hjlt' : quantileIdx l WARNING_QUANTILE
      < (l.insertionSort (· ≤ ·)).length := by omega
  have hcount : warningCount l = (l.insertionSort (· ≤ ·)).countP
      (fun x => decide (x ≤ quantileLinear l WARNING_QUANTILE)) := by
    unfold warningCount
    exact (hperm.countP_eq _).symm
  have htlen : ((l.insertionSort (· ≤ ·)).take
      (quantileIdx l WARNING_QUANTILE + 1)).length
      = quantileIdx l WARNING_QUANTILE + 1 := by
    rw [List.length_take]
    omega
  have hsum : (l.insertionSort (· ≤ ·)).countP
      (fun x => decide (x ≤ quantileLinear l WARNING_QUANTILE))
      = ((l.insertionSort (· ≤ ·)).take
          (quantileIdx l WARNING_QUANTILE + 1)).countP
          (fun x => decide (x ≤ quantileLinear l WARNING_QUANTILE))
        + ((l.insertionSort (· ≤ ·)).drop
          (quantileIdx l WARNING_QUANTILE + 1)).countP
          (fun x => decide (x ≤ quantileLinear l WARNING_QUANTILE)) := by
    conv_lhs => rw [← List.take_append_drop
      (quantileIdx l WARNING_QUANTILE + 1) (l.insertionSort (· ≤ ·))]
    rw [List.countP_append]
  have htakeLen : ((l.insertionSort (· ≤ ·)).take
      (quantileIdx l WARNING_QUANTILE + 1)).countP
      (fun x => decide (x ≤ quantileLinear l WARNING_QUANTILE))
      = ((l.insertionSort (· ≤ ·)).take
          (quantileIdx l WARNING_QUANTILE + 1)).length := by
    rw [List.countP_eq_length]
    intro a ha
    obtain ⟨i, hi, hia⟩ := List.mem_iff_getElem.mp ha
    have hii : i < quantileIdx l WARNING_QUANTILE + 1 := by
      rw [htlen] at hi
      exact hi
    have hisl : i < (l.insertionSort (· ≤ ·)).length := by omega
    rw [List.getElem_take] at hia
    have hle : (l.insertionSort (· ≤ ·))[i]
        ≤ (l.insertionSort (· ≤ ·))[quantileIdx l WARNING_QUANTILE] := by
      have := hsorted.rel_get_of_le
        (show (⟨i, hisl⟩ : Fin (l.insertionSort (· ≤ ·)).length)
          ≤ ⟨quantileIdx l WARNING_QUANTILE, hjlt'⟩ from by
            simp [Fin.mk_le_mk]
            omega)
      simpa using this
    have hjq := lower_stat_le_quantile l hl hjlt'
    simp only [decide_eq_true_eq]
    rw [← hia]
    exact le_trans hle hjq
  have htake : ((l.insertionSort (· ≤ ·)).take
      (quantileIdx l WARNING_QUANTILE + 1)).countP
      (fun x => decide (x ≤ quantileLinear l WARNING_QUANTILE))
      = quantileIdx l WARNING_QUANTILE + 1 := by
    rw [htakeLen, htlen]
  have hlower : quantileIdx l WARNING_QUANTILE + 1 ≤ warningCount l := by
    rw [hcount, hsum, htake]
    omega
  constructor
  · omega
  · intro hnd
    have hdrop : ((l.insertionSort (· ≤ ·)).drop
        (quantileIdx l WARNING_QUANTILE + 1)).countP
        (fun x => decide (x ≤ quantileLinear l WARNING_QUANTILE)) = 0 := by
      rw [List.countP_eq_zero]
      intro a ha
      by_cases hj1 : quantileIdx l WARNING_QUANTILE + 1
          < (l.insertionSort (· ≤ ·)).length
      · obtain ⟨i, hi, hia⟩ := List.mem_iff_getElem.mp ha
        rw [List.getElem_drop] at hia
        have hib : quantileIdx l WARNING_QUANTILE + 1 + i
            < (l.insertionSort (· ≤ ·)).length := by
          rw [List.length_drop] at hi
          omega
        have h1 : (l.insertionSort (· ≤ ·))[quantileIdx l WARNING_QUANTILE + 1]
            ≤ (l.insertionSort (· ≤ ·))[quantileIdx l WARNING_QUANTILE + 1 + i] := by
          have := hsorted.rel_get_of_le
            (show (⟨quantileIdx l WARNING_QUANTILE + 1, hj1⟩ :
                Fin (l.insertionSort (· ≤ ·)).length)
              ≤ ⟨quantileIdx l WARNING_QUANTILE + 1 + i, hib⟩ from by
                simp [Fin.mk_le_mk])
          simpa using this
        have h2 := quantile_lt_upper_stat l hl hnd hj1
        simp only [decide_eq_true_eq]
        rw [← hia]
        intro hcon
        have : quantileLinear l WARNING_QUANTILE
            < (l.insertionSort (· ≤ ·))[quantileIdx l WARNING_QUANTILE + 1 + i] :=
          lt_of_lt_of_le h2 h1
        linarith
      · exfalso
        have hnil : (l.insertionSort (· ≤ ·)).drop
            (quantileIdx l WARNING_QUANTILE + 1) = [] :=
          List.drop_eq_nil_iff.mpr (by omega)
        rw [hnil] at ha
        exact absurd ha (List.not_mem_nil a)
    have hupper : warningCount l ≤ quantileIdx l WARNING_QUANTILE + 1 := by
      rw [hcount, hsum, htake, hdrop]
    omega

/-- Claim C3 (amended) witness at a concrete input of five distinct values. -/
theorem warning_bucket_bounds_witness :
    ([(1 : ℚ), 2, 3, 4, 5] ≠ ([] : List ℚ)
      ∧ ([(1 : ℚ), 2, 3, 4, 5] : List ℚ).Nodup)
    ∧ (([(1 : ℚ), 2, 3, 4, 5] : List ℚ).length / 10
        ≤ warningCount [(1 : ℚ), 2, 3, 4, 5]
      ∧ (([(1 : ℚ), 2, 3, 4, 5] : List ℚ).Nodup →
          warningCount [(1 : ℚ), 2, 3, 4, 5]
            ≤ (([(1 : ℚ), 2, 3, 4, 5] : List ℚ).length + 9) / 10)) :=
  ⟨⟨by simp, by with_unfolding_all decide⟩,
   warning_bucket_bounds [(1 : ℚ), 2, 3, 4, 5] (by simp)⟩

/-! ## Regression claims -/

/-- Accumulating loop versus closed-form sum. -/
lemma foldl_add_sum {M : Type} [AddCommMonoid M] (g : ℕ → M) (m : ℕ)
    (init : M) :
    (List.range m).foldl (fun S i => S + g i) init
      = init + ∑ i ∈ Finset.range m, g i := by
  induction m with
  | zero => simp
  | succ k ih =>
      rw [List.range_succ, List.foldl_append, ih, Finset.sum_range_succ]
      simp [add_assoc]

/-- Claim C4: for horizon `h` both regressions compute the HAC covariance at
maximum lag exactly `h - 1` — the meat accumulated by the loop equals the
lag-0 term plus the Bartlett-weighted lagged cross products for lags
`1 .. h-1` only, with weight `1 - lag/h` at lag `lag` (so changing `h`
changes the set of lags accordingly) — the standard errors are the square
roots of the diagonal of that covariance, and the reported t-statistics are
the coefficients divided by these robust standard errors. -/
theorem hac_lag_and_tstats :
    (∀ (n k : ℕ) (X : Matrix (Fin n) (Fin k) ℚ) (y : Fin n → ℚ) (nlags : ℕ),
        sHacLoop (xuMat X y) nlags
          = (xuMat X y)ᵀ * (xuMat X y)
            + ∑ lag1 ∈ Finset.range nlags,
                (1 - (((lag1 : ℕ) : ℚ) + 1) / ((nlags : ℚ) + 1)) •
                  (gammaLag (xuMat X y) (lag1 + 1)
                    + (gammaLag (xuMat X y) (lag1 + 1))ᵀ))
    ∧ (∀ (n : ℕ) (dfear y : Fin n → ℚ) (h : ℕ),
        nw_cov1 dfear y h = cov_hac (addConstant1 dfear) y (h - 1)
        ∧ ∀ j, tstats1 dfear y h j
            = ((olsBeta (addConstant1 dfear) y j : ℚ) : ℝ)
              / Real.sqrt ((nw_cov1 dfear y h j j : ℚ) : ℝ))
    ∧ (∀ (n : ℕ) (fearz dfear y : Fin n → ℚ) (h : ℕ),
        nw_cov2 fearz dfear y h = cov_hac (addConstant2 fearz dfear) y (h - 1)
        ∧ ∀ j, tstats2 fearz dfear y h j
            = ((olsBeta (addConstant2 fearz dfear) y j : ℚ) : ℝ)
              / Real.sqrt ((nw_cov2 fearz dfear y h j j : ℚ) : ℝ)) := by
  refine ⟨?_, fun n dfear y h => ⟨rfl, fun j => rfl⟩,
    fun n fearz dfear y h => ⟨rfl, fun j => rfl⟩⟩
  intro n k X y nlags
  unfold sHacLoop
  exact foldl_add_sum
    (fun lag1 => (1 - (((lag1 : ℕ) : ℚ) + 1) / ((nlags : ℚ) + 1)) •
      (gammaLag (xuMat X y) (lag1 + 1) + (gammaLag (xuMat X y) (lag1 + 1))ᵀ))
    nlags ((xuMat X y)ᵀ * (xuMat X y))

end CarryCrash
